import Mathlib

/-!
Verification of the command-dispatch and extension-lifecycle engine
(`discord/ext/commands/bot.py`): prefix resolution, the default help
command's token walk, cog add/remove, extension load/unload, listener
dispatch, and message processing.

The Python code is shallowly embedded: dictionaries become association
lists (preserving insertion order, as Python dicts do), module identity
becomes the module's name string, and coroutine scheduling becomes
explicit outcome bookkeeping.  Functions from companion modules of the
same package that are not part of the examined file (`core.py`'s
`GroupMixin`/`Command` registry operations, `view.py`'s `StringView`)
are modelled from the specification and marked as such in their doc
comments.
-/

namespace PriestPy

/-- A registered event listener.  `id` stands for the Python function
object's identity, `evName` for `func.__name__` (the default event key
used by `add_listener`/`remove_listener`), and `module` for
`inspect.getmodule(func)`, by module name. -/
structure Listener where
  id : Nat
  evName : String
  module : Option String
deriving DecidableEq, Repr

/-- A command node of the registry tree.  `.node name module cogKey subs`:
`module` is the owning module (`command.module`), `cogKey` the owning cog
(`command.instance`), and `subs` is `some registry` exactly when the
command is a group (has a `commands` attribute); for a plain command it
is `none`, so that a subcommand lookup on it corresponds to the
`AttributeError` branch of the source. -/
inductive CmdNode where
  | node (name : String) (module : Option String) (cogKey : Option String)
         (subs : Option (List (String × CmdNode)))

/-- The command's name attribute. -/
def CmdNode.name : CmdNode → String
  | .node n _ _ _ => n

/-- The command's owning module (`command.module`). -/
def CmdNode.module : CmdNode → Option String
  | .node _ m _ _ => m

/-- The command's owning cog (`command.instance`). -/
def CmdNode.cogKey : CmdNode → Option String
  | .node _ _ k _ => k

/-- The command's subcommand registry: `some r` iff the command is a
group. -/
def CmdNode.subs : CmdNode → Option (List (String × CmdNode))
  | .node _ _ _ s => s

/-- Replace the owning-cog field (the `member.instance = cog` mutation
performed by `add_cog`). -/
def setCogKey (c : CmdNode) (k : Option String) : CmdNode :=
  match c with
  | .node n m _ s => .node n m k s

/-- One member of a cog, as produced by `inspect.getmembers`: the
attribute name together with what the attribute holds.  `cmd c hp`
is a `Command` instance (`hp` is whether `member.parent` is set);
`listenerM l` a coroutine function; `plain` any other attribute. -/
inductive MemberPayload where
  | cmd (c : CmdNode) (hp : Bool)
  | listenerM (l : Listener)
  | plain

/-- A cog member: attribute name plus payload.  `inspect.getmembers`
returns members sorted by attribute name; the list is that sequence. -/
structure CogMemberC where
  attrName : String
  payload : MemberPayload

/-- A cog: its originating module (`inspect.getmodule(cog)`, by name)
and its members in `inspect.getmembers` order. -/
structure Cog where
  module : Option String
  members : List CogMemberC

/-- The state of the `Bot` object that the examined operations read and
write: the top-level command registry (`self.commands`, an insertion
ordered dict from name to command), the listener table
(`self.extra_events`), the cog table (`self.cogs`), the extension load
table (`self.extensions`, keyed by module name), the process-wide module
cache (`sys.modules`, restricted to names this bot interacts with), and
a log of module top-level executions (`executions` records each time a
module's top-level code actually runs, which Python's import system
performs only on a cache miss). -/
structure BotState where
  commands : List (String × CmdNode)
  extraEvents : List (String × List Listener)
  cogs : List (String × Cog)
  extensions : List String
  sysModules : List String
  executions : List String

/-! ### Association-list primitives (the shape of Python `dict` access) -/

/-- `d.get(k)` on an association list: the value at the first matching
key, if any. -/
def alookup {α : Type} : List (String × α) → String → Option α
  | [], _ => none
  | (k', v) :: t, k => if k' = k then some v else alookup t k

/-- `del d[k]` / `d.pop(k)` on an association list: drop the first entry
with key `k` (no change when the key is absent, matching
`pop(k, None)`). -/
def aerase {α : Type} : List (String × α) → String → List (String × α)
  | [], _ => []
  | (k', v) :: t, k => if k' = k then t else (k', v) :: aerase t k

/-- `d[k] = v` on an association list: overwrite the entry in place if
the key exists, else append (Python dict insertion order). -/
def assocSet {α : Type} : List (String × α) → String → α → List (String × α)
  | [], k, v => [(k, v)]
  | (k', v') :: t, k, v => if k' = k then (k, v) :: t else (k', v') :: assocSet t k v

/-- `lst.remove(x)` then swallowing `ValueError`: drop the first
occurrence of `x`, no change if absent. -/
def removeFirst (ls : List Listener) (l : Listener) : List Listener :=
  match ls with
  | [] => []
  | x :: t => if x = l then t else x :: removeFirst t l

/-- Drop the first occurrence of a string from a list (`del` keyed by
name on a dict whose values we do not track). -/
def serase : List String → String → List String
  | [], _ => []
  | x :: t, k => if x = k then t else x :: serase t k

/-! ### Tokenizer (`StringView`) and prefix resolution -/

/-- Does `s` start with `pre`, byte-for-byte?  (Python `str.startswith`,
over the character sequence.) -/
def strStarts (s pre : String) : Bool :=
  pre.data.isPrefixOf s.data

/-- Drop the first `n` characters of `s` (advancing the view's cursor). -/
def strDrop (s : String) (n : Nat) : String :=
  ⟨s.data.drop n⟩

/-- Character length of a page (Python `len`). -/
def strLen (s : String) : Nat :=
  s.data.length

/-- Modelled from the spec: `StringView.skip_string` (`view.py` is not
part of the examined file).  "if the remaining text starts with `s`,
advances the cursor past it and returns true; otherwise leaves the
cursor unchanged and returns false."  The view is represented by its
remaining text; `some rest` is the advanced view on success. -/
def skipString (r p : String) : Option String :=
  if strStarts r p then some (strDrop r (strLen p)) else none

/-- Modelled from the spec: `StringView.get_word`.  "skips leading
whitespace, then returns the next contiguous non-whitespace token,
advancing the cursor past it; returns an empty result if no token
remains."  (The spec's quote-awareness concerns argument tokens and is
not exercised by the examined claims, so it is not modelled.) -/
def getWord (r : String) : String × String :=
  let r1 := r.data.dropWhile Char.isWhitespace
  let w := r1.takeWhile (fun c => !c.isWhitespace)
  (⟨w⟩, ⟨r1.drop w.length⟩)

/-- The prefix specification `Bot.command_prefix` after `_get_prefix`
has already applied a callable to the message: either a single literal
string or an ordered list of candidates. -/
inductive PfxSpec where
  | single (p : String)
  | multi (ps : List String)

/-- `discord.utils.find(view.skip_string, prefix)` over the candidate
list: try each candidate in list order with `skip_string`; a failed
attempt leaves the view unchanged, the first success consumes the
candidate and returns it together with the advanced view. -/
def findPfx : List String → String → Option (String × String)
  | [], _ => none
  | p :: t, content =>
    match skipString content p with
    | some rest => some (p, rest)
    | none => findPfx t content

/-- Prefix resolution step of `process_commands`: the single-string case
runs `view.skip_string(prefix)` directly; the list/tuple case scans with
`discord.utils.find`.  Returns the invoked prefix and the view after it,
or `none` when the message does not start with any candidate. -/
def resolvePfx : PfxSpec → String → Option (String × String)
  | .single p, content => (skipString content p).map (fun rest => (p, rest))
  | .multi ps, content => findPfx ps content

/-! ### Listener registration and dispatch -/

/-- `add_listener(func)` (with the default name, `func.__name__`):
append to the event's list when the key exists, else create the key
with a singleton list. -/
def addListener : List (String × List Listener) → Listener → List (String × List Listener)
  | [], l => [(l.evName, [l])]
  | (k, ls) :: rest, l =>
    if k = l.evName then (k, ls ++ [l]) :: rest
    else (k, ls) :: addListener rest l

/-- `remove_listener(func)` (default name): when the event key exists,
remove the first occurrence of the function from its list, swallowing
the `ValueError` when it is absent; when the key is absent, do
nothing. -/
def removeListener : List (String × List Listener) → Listener → List (String × List Listener)
  | [], _ => []
  | (k, ls) :: rest, l =>
    if k = l.evName then (k, removeFirst ls l) :: rest
    else (k, ls) :: removeListener rest l

/-- How a coroutine behaves when awaited: it returns normally, it is
cancelled (`asyncio.CancelledError`), or it raises some other
exception. -/
inductive ExcBehavior where
  | ok
  | cancelled
  | exc (e : String)
deriving DecidableEq, Repr

/-- The final state of a scheduled `_run_extra` task: it completed, or
an exception escaped it into the task object (never into the caller of
`dispatch`, which only schedules the task). -/
inductive RunOutcome where
  | completed
  | taskException (e : String)
deriving DecidableEq, Repr

/-- `_run_extra(coro, event_name, *args)`: await the listener, swallow
`CancelledError`; on any other exception await `self.on_error`,
swallowing a `CancelledError` raised there.  Arguments are the
listener's behaviour and the error hook's behaviour; the returned flag
records whether `on_error` was awaited. -/
def runExtra : ExcBehavior → ExcBehavior → RunOutcome × Bool
  | .ok, _ => (.completed, false)
  | .cancelled, _ => (.completed, false)
  | .exc _, .ok => (.completed, true)
  | .exc _, .cancelled => (.completed, true)
  | .exc _, .exc e => (.taskException e, true)

/-- The fan-out step of `dispatch(event_name, *args)`: every listener
registered under `'on_' + event_name` is wrapped in `_run_extra` and
scheduled as its own task via `create_task`, in registration order.
(The `super().dispatch` built-in handler is outside the examined
file.)  `dispatch` itself only schedules; it never awaits the tasks. -/
def dispatchExtra (extra : List (String × List Listener)) (eventName : String) : List Listener :=
  (alookup extra ("on_" ++ eventName)).getD []

/-- The eventual outcome of every scheduled task: each listener's task
runs `_run_extra` on that listener's own behaviour, independently of
its siblings. -/
def runScheduled (ls : List Listener) (beh : Listener → ExcBehavior × ExcBehavior) :
    List (Listener × (RunOutcome × Bool)) :=
  ls.map (fun l => (l, runExtra (beh l).1 (beh l).2))

/-! ### Cogs -/

/-- Modelled from the spec: `GroupMixin.add_command` (`core.py` is not
part of the examined file).  "insert(command) fails if name or any alias
already exists at this level"; on success the command is appended under
its name.  (Aliases are not modelled; none of the examined claims
involves them.) -/
def addCommand (reg : List (String × CmdNode)) (c : CmdNode) :
    Option (List (String × CmdNode)) :=
  if (alookup reg c.name).isSome then none else some (reg ++ [(c.name, c)])

/-- Modelled from the spec: `GroupMixin.remove_command` —
"remove(name) -> removed Command | not found"; removing an absent name
leaves the registry unchanged. -/
def removeCommand (reg : List (String × CmdNode)) (n : String) :
    List (String × CmdNode) :=
  aerase reg n

/-- Modelled from the spec: `Group.recursively_remove_all_commands` —
"removing a group must recursively detach every subcommand".  On a
group the subcommand registry is emptied; a plain command is
unchanged. -/
def recursivelyRemoveAll (c : CmdNode) : CmdNode :=
  match c with
  | .node n m k (some _) => .node n m k (some [])
  | x => x

/-- The member loop of `add_cog`: a `Command` member is bound to the cog
(`member.instance = cog`) and, when it has no parent, inserted at top
level; a non-command member whose attribute name starts with `on_` is
registered as a listener.  Returns `none` when a top-level insertion
fails (duplicate name). -/
def cogAdd (key : String) :
    List CogMemberC → List (String × CmdNode) × List (String × List Listener) →
    Option (List (String × CmdNode) × List (String × List Listener))
  | [], st => some st
  | m :: rest, (reg, evs) =>
    match m.payload with
    | .cmd c hp =>
      if hp then cogAdd key rest (reg, evs)
      else
        match addCommand reg (setCogKey c (some key)) with
        | none => none
        | some reg' => cogAdd key rest (reg', evs)
    | .listenerM l =>
      if strStarts m.attrName "on_" then cogAdd key rest (reg, addListener evs l)
      else cogAdd key rest (reg, evs)
    | .plain => cogAdd key rest (reg, evs)

/-- `add_cog(cog)`: store the cog under its type-name key (a dict
assignment, overwriting a same-keyed cog), then run the member loop.
In the source a failing insertion raises out of the loop leaving the
partial registrations behind; the model returns `none` for that case,
and is only consulted for successful additions. -/
def addCog (s : BotState) (key : String) (cog : Cog) : Option BotState :=
  match cogAdd key cog.members (s.commands, s.extraEvents) with
  | none => none
  | some (reg, evs) =>
    some { s with cogs := assocSet s.cogs key cog, commands := reg, extraEvents := evs }

/-- The member loop of `remove_cog`: a `Command` member is unbound
(`member.instance = None`) and, when it has no parent, removed from the
top level by name; a non-command member whose attribute name starts
with `on_` is removed from the listener table. -/
def cogRemove :
    List CogMemberC → List (String × CmdNode) × List (String × List Listener) →
    List (String × CmdNode) × List (String × List Listener)
  | [], st => st
  | m :: rest, (reg, evs) =>
    match m.payload with
    | .cmd c hp =>
      if hp then cogRemove rest (reg, evs)
      else cogRemove rest (removeCommand reg c.name, evs)
    | .listenerM l =>
      if strStarts m.attrName "on_" then cogRemove rest (reg, removeListener evs l)
      else cogRemove rest (reg, evs)
    | .plain => cogRemove rest (reg, evs)

/-- `remove_cog(name)`: pop the cog (returning `None` to the caller when
absent), run the member removal loop, call the optional synchronous
`_ClassName__unload` hook (which does not touch the tables), and fall
off the end.  The first component is the function's return value: the
source returns `None` on both paths (its final statement is `del cog`
with no `return`), even though its docstring promises the removed cog
instance. -/
def removeCog (s : BotState) (key : String) : Option Cog × BotState :=
  match alookup s.cogs key with
  | none => (none, s)
  | some cog =>
    let s1 := { s with cogs := aerase s.cogs key }
    let p := cogRemove cog.members (s1.commands, s1.extraEvents)
    (none, { s1 with commands := p.1, extraEvents := p.2 })

/-! ### Extensions -/

/-- The result of `load_extension`: `err` is the exception propagated
to the caller (if any), `state` the bot/process state afterwards — the
source mutates `sys.modules` by importing before it checks for `setup`,
so the state advances even on the error path. -/
structure LoadOutcome where
  err : Option String
  state : BotState

/-- Modelled from the spec: `importlib.import_module` and the
"process-wide module cache" it consults (the import machinery is an
external collaborator).  A cache hit returns the already-initialised
module without running anything; a cache miss executes the module's
top-level code (recorded in `executions`) and caches it. -/
def importMod (s : BotState) (name : String) : BotState :=
  if name ∈ s.sysModules then s
  else { s with sysModules := s.sysModules ++ [name],
                executions := s.executions ++ [name] }

/-- `load_extension(name)`: no-op when already in the load table;
otherwise import the module, raise `discord.ClientException` when it
has no `setup` attribute (before the load table is touched), else call
`setup(self)` and record the module.  `hasSetup name` tells whether the
module named `name` defines `setup`; `setupEff name` is the effect of
that module's `setup(self)` call on the bot state. -/
def loadExtension (hasSetup : String → Bool) (setupEff : String → BotState → BotState)
    (s : BotState) (name : String) : LoadOutcome :=
  if name ∈ s.extensions then ⟨none, s⟩
  else
    let s1 := importMod s name
    if hasSetup name then
      let s2 := setupEff name s1
      ⟨none, { s2 with extensions :=
          if name ∈ s2.extensions then s2.extensions else s2.extensions ++ [name] }⟩
    else ⟨some "extension does not have a setup function", s1⟩

/-- First loop of `unload_extension`: over a snapshot of `self.cogs`,
remove (via the full `remove_cog` path) every cog whose originating
module is the unloaded one. -/
def unloadCogsFold : List (String × Cog) → String → BotState → BotState
  | [], _, st => st
  | (k, c) :: rest, M, st =>
    unloadCogsFold rest M (if c.module = some M then (removeCog st k).2 else st)

/-- Second loop of `unload_extension`: over a snapshot of
`self.commands.values()`, for every top-level command owned by the
module, clear `command.module`, recursively remove its subcommands when
it is a group, and remove it from the registry by name.  (The first two
mutations touch only the object being removed, so the registry effect
is the removal by name; `recursivelyRemoveAll` is applied to the
object before its name is read, mirroring the source order.) -/
def unloadCmdsFold : List (String × CmdNode) → String → List (String × CmdNode) →
    List (String × CmdNode)
  | [], _, reg => reg
  | (_, c) :: rest, M, reg =>
    unloadCmdsFold rest M
      (if c.module = some M then removeCommand reg (recursivelyRemoveAll c).name else reg)

/-- Third loop of `unload_extension`: from every event's list, delete
(by descending index) each listener originating from the module —
i.e. keep exactly the listeners from other modules. -/
def unloadEvsFilter (evs : List (String × List Listener)) (M : String) :
    List (String × List Listener) :=
  evs.map (fun p => (p.1, p.2.filter (fun l => !(l.module == some M))))

/-- `unload_extension(name)`: no-op when the name is not in the load
table; otherwise remove the module's cogs, then its top-level commands,
then its listeners, and finally evict it from the load table and from
`sys.modules`. -/
def unloadExtension (s : BotState) (name : String) : BotState :=
  if name ∈ s.extensions then
    let s1 := unloadCogsFold s.cogs name s
    let s2 := { s1 with commands := unloadCmdsFold s1.commands name s1.commands }
    let s3 := { s2 with extraEvents := unloadEvsFilter s2.extraEvents name }
    { s3 with extensions := serase s3.extensions name,
              sysModules := serase s3.sysModules name }
  else s

/-! ### Message processing -/

/-- A framework error attached to a `command_error` event. -/
inductive CmdError where
  | commandNotFound (msg : String)
deriving DecidableEq, Repr

/-- The events `process_commands` dispatches, in order. -/
inductive BotEvent where
  | command (name : String)
  | commandCompletion (name : String)
  | commandError (e : CmdError)
deriving DecidableEq, Repr

/-- The observable result of one `process_commands(message)` call:
the events dispatched, the prefix recorded in the context (`none` when
the message was not treated as a command), and the exception
propagating to the caller, if any. -/
structure ProcOutcome where
  events : List BotEvent
  usedPfx : Option String
  raised : Option String
deriving DecidableEq, Repr

/-- The `CommandNotFound('Command "{}" is not found'.format(invoker))`
message text. -/
def commandNotFoundMsg (invoker : String) : String :=
  "Command \"" ++ invoker ++ "\" is not found"

/-- `process_commands(message)`: ignore the bot's own messages; resolve
the prefix against the message content (no match: return silently);
read the invoker token; when it names a registered command, dispatch
`command`, invoke it (`invokeBeh` gives the callback's behaviour; an
exception there propagates to the caller before `command_completion`),
then dispatch `command_completion`; when it does not, dispatch
`command_error` with a `CommandNotFound` and return normally. -/
def processCommands (authorIsSelf : Bool) (pfx : PfxSpec)
    (reg : List (String × CmdNode)) (invokeBeh : String → Option String)
    (content : String) : ProcOutcome :=
  if authorIsSelf then ⟨[], none, none⟩
  else
    match resolvePfx pfx content with
    | none => ⟨[], none, none⟩
    | some (p, rest) =>
      let invoker := (getWord rest).1
      match alookup reg invoker with
      | some _ =>
        match invokeBeh invoker with
        | none => ⟨[.command invoker, .commandCompletion invoker], some p, none⟩
        | some e => ⟨[.command invoker], some p, some e⟩
      | none =>
        ⟨[.commandError (.commandNotFound (commandNotFoundMsg invoker))], some p, none⟩

/-! ### The default help command -/

/-- Where a help message is sent. -/
inductive Destination where
  | author
  | channel
deriving DecidableEq, Repr

/-- A message the help command sends: a formatted `command_not_found`
text (one slot: the attempted name), a formatted
`command_has_no_subcommands` text (two slots: the resolved parent
command and the attempted subcommand name), or one rendered help
page. -/
inductive HelpMsg where
  | notFound (name : String)
  | noSubcommands (parentName : String) (subName : String)
  | page (text : String)
deriving DecidableEq, Repr

/-- What `formatter.format_help_for(ctx, entity)` is asked to render:
the bot itself, a cog, or a command.  The formatter is an external
collaborator; its output is a parameter of the model. -/
inductive FormatTarget where
  | botT
  | cogT (name : String)
  | cmdT (c : CmdNode)

/-- Result of the subcommand walk of `_default_help_command`. -/
inductive WalkResult where
  | found (c : CmdNode)
  | noSub (parentName : String) (key : String)
  | notFoundW (key : String)

/-- The `for key in commands[1:]` walk: at each step read
`command.commands.get(key)`.  A command with no `commands` attribute
(a non-group) raises `AttributeError`, reported via
`command_has_no_subcommands`; a group that lacks the key yields `None`,
reported via `command_not_found`. -/
def subWalk : CmdNode → List String → WalkResult
  | c, [] => .found c
  | c, k :: ks =>
    match c.subs with
    | none => .noSub c.name k
    | some l =>
      match alookup l k with
      | none => .notFoundW k
      | some c' => subWalk c' ks

/-- `destination = ctx.message.author if bot.pm_help else
ctx.message.channel`: only a true `pm_help` is truthy. -/
def initialDest (pmHelp : Option Bool) : Destination :=
  if pmHelp = some true then .author else .channel

/-- Total character count of the rendered pages
(`sum(map(lambda l: len(l), pages))`). -/
def sumLen (pages : List String) : Nat :=
  (pages.map strLen).sum

/-- The delivery loop: when `pm_help` is `None` and the pages exceed
1000 characters, the destination is changed to the author; every page
is then sent to the resulting destination. -/
def deliverPages (d0 : Destination) (pmHelp : Option Bool) (pages : List String) :
    List (Destination × HelpMsg) :=
  let d := if pmHelp = none ∧ sumLen pages > 1000 then Destination.author else d0
  pages.map (fun t => (d, .page t))

/-- `_default_help_command(ctx, *commands)`: no arguments formats the
bot; one argument prefers a cog of that name, then a command, else
sends `command_not_found`; two or more arguments resolve the first
token at top level (else `command_not_found`) and walk the rest through
`subWalk`.  Every early failure sends exactly one message to the
initial destination and returns; pages go through `deliverPages`. -/
def defaultHelp (pmHelp : Option Bool) (cogNames : List String)
    (reg : List (String × CmdNode)) (fmt : FormatTarget → List String)
    (args : List String) : List (Destination × HelpMsg) :=
  let d0 := initialDest pmHelp
  match args with
  | [] => deliverPages d0 pmHelp (fmt .botT)
  | [name] =>
    if name ∈ cogNames then deliverPages d0 pmHelp (fmt (.cogT name))
    else
      match alookup reg name with
      | none => [(d0, .notFound name)]
      | some c => deliverPages d0 pmHelp (fmt (.cmdT c))
  | name :: rest =>
    match alookup reg name with
    | none => [(d0, .notFound name)]
    | some c =>
      match subWalk c rest with
      | .noSub parentName key => [(d0, .noSubcommands parentName key)]
      | .notFoundW key => [(d0, .notFound key)]
      | .found c' => deliverPages d0 pmHelp (fmt (.cmdT c'))

/-- The spec's tri-state delivery rule, stated in its own words: `true`
always delivers privately, `false` never, unset delivers privately
exactly when the rendered text exceeds 1000 characters.  Compared
against the destinations `defaultHelp` actually produces. -/
def triDest (pmHelp : Option Bool) (total : Nat) : Destination :=
  match pmHelp with
  | some true => .author
  | some false => .channel
  | none => if total > 1000 then .author else .channel

/-- The rendered pages among the messages a help invocation sent. -/
def pageTexts (out : List (Destination × HelpMsg)) : List String :=
  out.filterMap (fun x =>
    match x.2 with
    | .page t => some t
    | _ => none)

/-! ### Concrete states used to instantiate the theorems -/

/-- A bot with nothing registered. -/
def emptyState : BotState := ⟨[], [], [], [], [], []⟩

/-- A listener contributed by extension `extA`. -/
def exL1 : Listener := ⟨1, "on_message", some "extA"⟩

/-- A listener contributed by a different module. -/
def exL2 : Listener := ⟨2, "on_message", some "other"⟩

/-- A command contributed by extension `extA` through cog `MyCog`. -/
def exCmdA : CmdNode := .node "hello" (some "extA") (some "MyCog") none

/-- A command contributed by another module. -/
def exCmdB : CmdNode := .node "keep" (some "other") none none

/-- The cog that extension `extA` registered: one top-level command
member and one listener member. -/
def exCog : Cog :=
  ⟨some "extA", [⟨"cmdm", .cmd exCmdA false⟩, ⟨"on_message", .listenerM exL1⟩]⟩

/-- A bot with extension `extA` loaded (cog `MyCog`, command `hello`,
listener `exL1`) next to entities from another module. -/
def exState : BotState :=
  { commands := [("hello", exCmdA), ("keep", exCmdB)]
    extraEvents := [("on_message", [exL1, exL2])]
    cogs := [("MyCog", exCog)]
    extensions := ["extA"]
    sysModules := ["extA", "other"]
    executions := [] }

/-- A cog used for the add/remove round trip: a fresh command and a
fresh listener. -/
def rtL : Listener := ⟨3, "on_x", some "m"⟩

/-- The command member of `rtCog`. -/
def rtCmd : CmdNode := .node "hi" (some "m") none none

/-- The round-trip cog. -/
def rtCog : Cog := ⟨some "m", [⟨"c1", .cmd rtCmd false⟩, ⟨"on_x", .listenerM rtL⟩]⟩

/-- A behaviour assignment where `exL1` raises and `exL2` runs
normally. -/
def behEx (l : Listener) : ExcBehavior × ExcBehavior :=
  if l = exL1 then (.exc "boom", .ok) else (.ok, .ok)

/-- A group command named `parent` whose only subcommand is `other`. -/
def cexGrp : CmdNode := .node "parent" none none (some [("other", .node "other" none none none)])

/-- A registry holding only the group `parent`. -/
def cexReg : List (String × CmdNode) := [("parent", cexGrp)]

/-- A plain (non-group) command named `parent`. -/
def cexPlain : CmdNode := .node "parent" none none none

/-- A registry holding only the plain command `parent`. -/
def cexRegP : List (String × CmdNode) := [("parent", cexPlain)]

/-- A formatter stub rendering one page for any target. -/
def cexFmt : FormatTarget → List String := fun _ => ["X"]

/-- The registered names of a command registry, order-insensitively: the
multiset of its keys. -/
def namesM (reg : List (String × CmdNode)) : Multiset String :=
  ↑(reg.map Prod.fst)

/-- The registered listeners of a listener table, order-insensitively:
the multiset of (event name, listener) pairs. -/
def flattenEvs : List (String × List Listener) → Multiset (String × Listener)
  | [] => 0
  | (k, ls) :: rest => ↑(ls.map (fun l => (k, l))) + flattenEvs rest

/-- The top-level command names a cog's member loop touches: the names
of its parentless command members, in member order. -/
def cogCmdNames (ms : List CogMemberC) : List String :=
  ms.filterMap (fun m =>
    match m.payload with
    | .cmd c hp => if hp then none else some c.name
    | _ => none)

/-- The listener registrations a cog's member loop performs: the
(event name, listener) pairs of its `on_`-named listener members, in
member order. -/
def cogListenerPairs (ms : List CogMemberC) : List (String × Listener) :=
  ms.filterMap (fun m =>
    match m.payload with
    | .listenerM l => if strStarts m.attrName "on_" then some (l.evName, l) else none
    | _ => none)

/-- The state `addCog emptyState "K" rtCog` produces. -/
def rtAdded : BotState :=
  { commands := [("hi", CmdNode.node "hi" (some "m") (some "K") none)]
    extraEvents := [("on_x", [rtL])]
    cogs := [("K", rtCog)]
    extensions := []
    sysModules := []
    executions := [] }

/-- A cog entry survives unloading module `M` iff it does not originate
from `M`. -/
def keepCog (M : String) (q : String × Cog) : Bool :=
  !(q.2.module == some M)

/-- A registry entry survives unloading module `M` iff its command is
not owned by `M`. -/
def keepCmd (M : String) (p : String × CmdNode) : Bool :=
  !(p.2.module == some M)

/-- A listener survives unloading module `M` iff it does not originate
from `M`. -/
def keepL (M : String) (l : Listener) : Bool :=
  !(l.module == some M)

/-- The listener table with every `M`-owned listener dropped, per
event. -/
def evF (M : String) (evs : List (String × List Listener)) :
    List (String × List Listener) :=
  evs.map (fun p => (p.1, p.2.filter (fun l => keepL M l)))

/-- A cog's members are attributed consistently with module `M` and the
registry `orig`: every parentless command member resolves (by name) only
to `M`-owned registry entries, and every listener member originates
from `M`.  This holds by construction for a cog that module `M`
defined and registered. -/
def MembersOwned (M : String) (orig : List (String × CmdNode)) (c : Cog) : Prop :=
  (∀ m ∈ c.members, ∀ cn : CmdNode, m.payload = .cmd cn false →
     ∀ p ∈ orig, p.1 = cn.name → p.2.module = some M) ∧
  (∀ m ∈ c.members, ∀ l : Listener, m.payload = .listenerM l → l.module = some M)

/-- The well-formedness `unload_extension` relies on: dict keys are
duplicate-free, every registry entry is keyed by its command's name,
and every cog originating from `M` owns only `M`-attributed entries. -/
def UnloadSafe (s : BotState) (M : String) : Prop :=
  (s.cogs.map Prod.fst).Nodup ∧
  (s.commands.map Prod.fst).Nodup ∧
  (∀ p ∈ s.commands, p.1 = p.2.name) ∧
  (∀ q ∈ s.cogs, q.2.module = some M → MembersOwned M s.commands q.2)

/-! ## Theorems -/

/-- Importing never touches the load table. -/
theorem importMod_extensions (s : BotState) (name : String) :
    (importMod s name).extensions = s.extensions := by
  unfold importMod; split <;> rfl

/-- C9: `remove_cog` returns `None` both when the cog is absent and
when it was found and removed; it never returns the removed cog
instance (the source falls off the end of the function, contradicting
its docstring, and the claim describes the code). -/
theorem remove_cog_returns_none (s : BotState) (key : String) :
    (removeCog s key).1 = none := by
  unfold removeCog
  cases alookup s.cogs key <;> rfl

/-- C7: `load_extension` is a no-op when the name is already in the
load table; otherwise, when the module lacks a `setup` attribute, it
raises a `ClientException` synchronously and the load table is left
without the name. -/
theorem load_extension_missing_setup (hasSetup : String → Bool)
    (setupEff : String → BotState → BotState) (s : BotState) (name : String) :
    (name ∈ s.extensions → loadExtension hasSetup setupEff s name = ⟨none, s⟩) ∧
    (name ∉ s.extensions → hasSetup name = false →
      (loadExtension hasSetup setupEff s name).err =
          some "extension does not have a setup function" ∧
      (loadExtension hasSetup setupEff s name).state.extensions = s.extensions) := by
  constructor
  · intro h
    simp [loadExtension, h]
  · intro h hns
    simp [loadExtension, h, hns, importMod_extensions]

/-- Witness for C7 at a concrete input: loading an unknown module with
no `setup` errors and records nothing. -/
theorem load_extension_missing_setup_witness :
    ("m" ∉ emptyState.extensions) ∧
    ((loadExtension (fun _ => false) (fun _ st => st) emptyState "m").err =
        some "extension does not have a setup function" ∧
     (loadExtension (fun _ => false) (fun _ st => st) emptyState "m").state.extensions =
        emptyState.extensions) :=
  ⟨by decide,
   (load_extension_missing_setup (fun _ => false) (fun _ st => st) emptyState "m").2
     (by decide) rfl⟩

/-- C10: a `load_extension` that fails for a missing `setup` leaves the
load table unchanged but the module cached in `sys.modules` with its
top-level code executed once; a repeated attempt fails again without
re-executing the module; and `unload_extension` on the never-recorded
name is a no-op, so the cache entry survives. -/
theorem failed_load_keeps_module_cached (hasSetup : String → Bool)
    (setupEff : String → BotState → BotState) (s : BotState) (name : String)
    (h1 : name ∉ s.extensions) (h2 : hasSetup name = false)
    (h3 : name ∉ s.sysModules) :
    ((loadExtension hasSetup setupEff s name).err).isSome = true ∧
    (loadExtension hasSetup setupEff s name).state.extensions = s.extensions ∧
    name ∈ (loadExtension hasSetup setupEff s name).state.sysModules ∧
    (loadExtension hasSetup setupEff s name).state.executions = s.executions ++ [name] ∧
    (loadExtension hasSetup setupEff
        ((loadExtension hasSetup setupEff s name).state) name).state.executions =
      (loadExtension hasSetup setupEff s name).state.executions ∧
    ((loadExtension hasSetup setupEff
        ((loadExtension hasSetup setupEff s name).state) name).err).isSome = true ∧
    unloadExtension ((loadExtension hasSetup setupEff s name).state) name =
      (loadExtension hasSetup setupEff s name).state := by
  simp only [loadExtension, importMod, unloadExtension, if_neg h1, h2, if_neg h3]
  simp [h1, h2, h3]

/-- Witness for C10 at a concrete input. -/
theorem failed_load_keeps_module_cached_witness :
    ((loadExtension (fun _ => false) (fun _ st => st) emptyState "m").err).isSome = true ∧
    (loadExtension (fun _ => false) (fun _ st => st) emptyState "m").state.extensions =
      emptyState.extensions ∧
    "m" ∈ (loadExtension (fun _ => false) (fun _ st => st) emptyState "m").state.sysModules ∧
    (loadExtension (fun _ => false) (fun _ st => st) emptyState "m").state.executions =
      emptyState.executions ++ ["m"] ∧
    (loadExtension (fun _ => false) (fun _ st => st)
        ((loadExtension (fun _ => false) (fun _ st => st) emptyState "m").state)
        "m").state.executions =
      (loadExtension (fun _ => false) (fun _ st => st) emptyState "m").state.executions ∧
    ((loadExtension (fun _ => false) (fun _ st => st)
        ((loadExtension (fun _ => false) (fun _ st => st) emptyState "m").state)
        "m").err).isSome = true ∧
    unloadExtension ((loadExtension (fun _ => false) (fun _ st => st) emptyState "m").state)
        "m" =
      (loadExtension (fun _ => false) (fun _ st => st) emptyState "m").state :=
  failed_load_keeps_module_cached (fun _ => false) (fun _ st => st) emptyState "m"
    (by decide) rfl (by decide)

/-- When no candidate is a literal prefix of the content, the scan
fails. -/
theorem findPfx_none (ps : List String) (content : String)
    (h : ∀ q ∈ ps, strStarts content q = false) : findPfx ps content = none := by
  induction ps with
  | nil => rfl
  | cons p t ih =>
    have hp := h p (by simp)
    simp only [findPfx, skipString, hp, if_neg]
    simp only [Bool.false_eq_true, if_false]
    exact ih (fun q hq => h q (by simp [hq]))

/-- The scan accepts the first candidate, in list order, that is a
literal prefix of the content, and consumes it from the view. -/
theorem findPfx_first (l₁ : List String) (p : String) (l₂ : List String)
    (content : String) (h : ∀ q ∈ l₁, strStarts content q = false)
    (hp : strStarts content p = true) :
    findPfx (l₁ ++ p :: l₂) content = some (p, strDrop content (strLen p)) := by
  induction l₁ with
  | nil => simp [findPfx, skipString, hp]
  | cons q t ih =>
    have hq := h q (by simp)
    simp only [List.cons_append, findPfx, skipString, hq]
    simp only [Bool.false_eq_true, if_false]
    exact ih (fun r hr => h r (by simp [hr]))

/-- C6: for an ordered prefix list, resolution picks the first entry
that literally starts the message, consuming it from the view; and
when no entry matches, `process_commands` returns with no events, no
recorded prefix, and no exception. -/
theorem pfx_list_first_match :
    (∀ (l₁ : List String) (p : String) (l₂ : List String) (content : String),
       (∀ q ∈ l₁, strStarts content q = false) → strStarts content p = true →
       resolvePfx (.multi (l₁ ++ p :: l₂)) content =
         some (p, strDrop content (strLen p))) ∧
    (∀ (ps : List String) (reg : List (String × CmdNode))
       (invokeBeh : String → Option String) (content : String),
       (∀ q ∈ ps, strStarts content q = false) →
       processCommands false (.multi ps) reg invokeBeh content = ⟨[], none, none⟩) := by
  constructor
  · intro l₁ p l₂ content h hp
    simpa [resolvePfx] using findPfx_first l₁ p l₂ content h hp
  · intro ps reg invokeBeh content h
    simp [processCommands, resolvePfx, findPfx_none ps content h]

/-- Witness for C6 at concrete inputs: with list `["!", "?"]` and
message `"?foo"`, the second entry matches (the first having failed),
and with no matching entry the message is not treated as a command. -/
theorem pfx_list_first_match_witness :
    (strStarts "?foo" "!" = false) ∧ (strStarts "?foo" "?" = true) ∧
    resolvePfx (.multi (["!"] ++ "?" :: [])) "?foo" =
      some ("?", strDrop "?foo" (strLen "?")) ∧
    processCommands false (.multi ["!", "&"]) [] (fun _ => none) "zap" =
      ⟨[], none, none⟩ :=
  ⟨by decide, by decide,
   pfx_list_first_match.1 ["!"] "?" [] "?foo" (by decide) (by decide),
   pfx_list_first_match.2 ["!", "&"] [] (fun _ => none) "zap" (by decide)⟩

/-- C5: when the prefix matches but the invoker token is not a
registered command, `process_commands` dispatches exactly one
`command_error` event carrying a `CommandNotFound` and returns
normally — nothing is raised to its caller. -/
theorem process_unresolved_emits_error (pfx : PfxSpec)
    (reg : List (String × CmdNode)) (invokeBeh : String → Option String)
    (content p rest : String)
    (h1 : resolvePfx pfx content = some (p, rest))
    (h2 : alookup reg (getWord rest).1 = none) :
    processCommands false pfx reg invokeBeh content =
      ⟨[.commandError (.commandNotFound (commandNotFoundMsg (getWord rest).1))],
       some p, none⟩ := by
  simp [processCommands, h1, h2]

/-- Witness for C5 at a concrete input: `"!zap x"` with prefix `"!"`
and an empty registry. -/
theorem process_unresolved_emits_error_witness :
    resolvePfx (.single "!") "!zap x" = some ("!", "zap x") ∧
    alookup ([] : List (String × CmdNode)) (getWord "zap x").1 = none ∧
    processCommands false (.single "!") [] (fun _ => none) "!zap x" =
      ⟨[.commandError (.commandNotFound (commandNotFoundMsg (getWord "zap x").1))],
       some "!", none⟩ :=
  ⟨by decide, rfl,
   process_unresolved_emits_error (.single "!") [] (fun _ => none) "!zap x" "!" "zap x"
     (by decide) rfl⟩

/-- C4: the `_run_extra` wrapper swallows a cancellation silently (no
`on_error`), routes any other exception raised by the listener to
`on_error` (also when `on_error` itself is cancelled), and `dispatch`
schedules a wrapped task for every listener registered on the event —
each task's outcome is a function of that listener's own behaviour, so
no sibling's exception reaches another task, and nothing propagates to
the `dispatch` call site, which only creates the tasks. -/
theorem dispatch_listener_isolation :
    (∀ hb, runExtra .cancelled hb = (.completed, false)) ∧
    (∀ e hb, (runExtra (.exc e) hb).2 = true) ∧
    (∀ e, runExtra (.exc e) .cancelled = (.completed, true)) ∧
    (∀ (extra : List (String × List Listener)) (ev : String)
       (beh : Listener → ExcBehavior × ExcBehavior),
       (runScheduled (dispatchExtra extra ev) beh).map Prod.fst = dispatchExtra extra ev) ∧
    (∀ (extra : List (String × List Listener)) (ev : String)
       (beh : Listener → ExcBehavior × ExcBehavior) (l : Listener),
       l ∈ dispatchExtra extra ev →
       (l, runExtra (beh l).1 (beh l).2) ∈ runScheduled (dispatchExtra extra ev) beh) := by
  refine ⟨fun hb => by cases hb <;> rfl, fun e hb => by cases hb <;> rfl,
          fun e => rfl, fun extra ev beh => ?_, fun extra ev beh l hl => ?_⟩
  · simp only [runScheduled, List.map_map]
    exact List.map_id _ ▸ rfl
  · exact List.mem_map_of_mem _ hl

/-- Witness for C4 at concrete inputs: `exL1` raises but its sibling
`exL2`, registered on the same event, is scheduled and completes. -/
theorem dispatch_listener_isolation_witness :
    (exL2 ∈ dispatchExtra [("on_message", [exL1, exL2])] "message") ∧
    (exL2, runExtra (behEx exL2).1 (behEx exL2).2) ∈
      runScheduled (dispatchExtra [("on_message", [exL1, exL2])] "message") behEx :=
  ⟨by decide,
   dispatch_listener_isolation.2.2.2.2 [("on_message", [exL1, exL2])] "message" behEx exL2
     (by decide)⟩

/-- Page extraction inverts page delivery. -/
theorem pageTexts_deliverPages (d0 : Destination) (pm : Option Bool)
    (pages : List String) : pageTexts (deliverPages d0 pm pages) = pages := by
  simp only [pageTexts, deliverPages, List.filterMap_map, Function.comp_def]
  exact List.filterMap_some pages

/-- Destination of any delivered page, against the spec's tri-state
rule. -/
theorem help_dest_core (pm : Option Bool) (pages : List String)
    (d : Destination) (t : String)
    (hm : (d, HelpMsg.page t) ∈ deliverPages (initialDest pm) pm pages) :
    d = triDest pm (sumLen pages) := by
  simp only [deliverPages, List.mem_map, Prod.mk.injEq] at hm
  obtain ⟨a, _, hd, -⟩ := hm
  rcases pm with _ | b
  · by_cases h1000 : sumLen pages > 1000 <;>
      simp [triDest, initialDest, h1000] at hd ⊢ <;> exact hd.symm
  · cases b <;> simp [triDest, initialDest] at hd ⊢ <;> exact hd.symm

/-- C8: every page the default help command sends goes to the
destination the `pm_help` tri-state dictates: always the author when
`true`, always the channel when `false`, and — when unset — the author
exactly when the rendered pages exceed 1000 characters, else the
channel. -/
theorem help_destination_tristate (pm : Option Bool) (cogNames : List String)
    (reg : List (String × CmdNode)) (fmt : FormatTarget → List String)
    (args : List String) (d : Destination) (t : String)
    (hm : (d, HelpMsg.page t) ∈ defaultHelp pm cogNames reg fmt args) :
    d = triDest pm (sumLen (pageTexts (defaultHelp pm cogNames reg fmt args))) := by
  rcases args with _ | ⟨a, _ | ⟨b, rest⟩⟩
  · simp only [defaultHelp] at hm ⊢
    rw [pageTexts_deliverPages]
    exact help_dest_core pm _ d t hm
  · simp only [defaultHelp] at hm ⊢
    by_cases hc : a ∈ cogNames
    · simp only [if_pos hc] at hm ⊢
      rw [pageTexts_deliverPages]
      exact help_dest_core pm _ d t hm
    · simp only [if_neg hc] at hm ⊢
      cases halo : alookup reg a with
      | none => simp [halo] at hm
      | some c =>
        simp only [halo] at hm ⊢
        rw [pageTexts_deliverPages]
        exact help_dest_core pm _ d t hm
  · simp only [defaultHelp] at hm ⊢
    cases halo : alookup reg a with
    | none => simp [halo] at hm
    | some c =>
      simp only [halo] at hm ⊢
      cases hw : subWalk c (b :: rest) with
      | found c' =>
        simp only [hw] at hm ⊢
        rw [pageTexts_deliverPages]
        exact help_dest_core pm _ d t hm
      | noSub pn k => simp [hw] at hm
      | notFoundW k => simp [hw] at hm

/-- Witness for C8 at a concrete input: with `pm_help` unset and a
short page, help for the bot goes to the channel. -/
theorem help_destination_tristate_witness :
    (Destination.channel, HelpMsg.page "X") ∈ defaultHelp none [] cexReg cexFmt [] ∧
    Destination.channel =
      triDest none (sumLen (pageTexts (defaultHelp none [] cexReg cexFmt []))) :=
  ⟨by decide,
   help_destination_tristate none [] cexReg cexFmt [] Destination.channel "X" (by decide)⟩

/-- C1 counterexample: `parent` exists and is a group that lacks the
subcommand `missing`; the help walk reports the generic
`command_not_found` for `missing`, not `command_has_no_subcommands`. -/
theorem help_group_missing_sub_cex :
    defaultHelp (some false) [] cexReg cexFmt ["parent", "missing"] =
      [(.channel, .notFound "missing")] ∧
    (Destination.channel, HelpMsg.noSubcommands "parent" "missing") ∉
      defaultHelp (some false) [] cexReg cexFmt ["parent", "missing"] ∧
    (Destination.author, HelpMsg.noSubcommands "parent" "missing") ∉
      defaultHelp (some false) [] cexReg cexFmt ["parent", "missing"] := by
  refine ⟨?_, ?_, ?_⟩ <;> decide

/-- C1 as amended: when the token chain's head resolves to a command,
a failing step reports `command_has_no_subcommands` (naming the parent
and the token) exactly when the parent is not a group at all, and the
generic `command_not_found` (naming the token) when the parent is a
group lacking that subcommand; either way exactly one message is sent
and no help page is produced, so nothing is invoked. -/
theorem help_walk_failure_modes (pm : Option Bool) (cogNames : List String)
    (reg : List (String × CmdNode)) (fmt : FormatTarget → List String)
    (t0 t1 : String) (rest : List String) (c : CmdNode)
    (h : alookup reg t0 = some c) :
    (c.subs = none →
       defaultHelp pm cogNames reg fmt (t0 :: t1 :: rest) =
         [(initialDest pm, .noSubcommands c.name t1)]) ∧
    (∀ l, c.subs = some l → alookup l t1 = none →
       defaultHelp pm cogNames reg fmt (t0 :: t1 :: rest) =
         [(initialDest pm, .notFound t1)]) := by
  constructor
  · intro hs
    simp [defaultHelp, h, subWalk, hs]
  · intro l hs hl
    simp [defaultHelp, h, subWalk, hs, hl]

/-- Witness for the amended C1 at concrete inputs: the non-group parent
triggers the has-no-subcommands message, the group parent missing the
token triggers the not-found message. -/
theorem help_walk_failure_modes_witness :
    alookup cexRegP "parent" = some cexPlain ∧ cexPlain.subs = none ∧
    defaultHelp (some false) [] cexRegP cexFmt ["parent", "missing"] =
      [(initialDest (some false), .noSubcommands cexPlain.name "missing")] ∧
    alookup cexReg "parent" = some cexGrp ∧
    cexGrp.subs = some [("other", CmdNode.node "other" none none none)] ∧
    alookup [("other", CmdNode.node "other" none none none)] "missing" = none ∧
    defaultHelp (some false) [] cexReg cexFmt ["parent", "missing"] =
      [(initialDest (some false), .notFound "missing")] :=
  ⟨rfl, rfl,
   (help_walk_failure_modes (some false) [] cexRegP cexFmt "parent" "missing" [] cexPlain
     rfl).1 rfl,
   rfl, rfl, rfl,
   (help_walk_failure_modes (some false) [] cexReg cexFmt "parent" "missing" [] cexGrp
     rfl).2 [("other", CmdNode.node "other" none none none)] rfl rfl⟩

/-- Binding a command to a cog does not change its name. -/
theorem setCogKey_name (c : CmdNode) (k : Option String) :
    (setCogKey c k).name = c.name := by
  cases c; rfl

/-- Looking up the key just assigned finds the assigned value. -/
theorem alookup_assocSet_self {α : Type} (t : List (String × α)) (k : String) (v : α) :
    alookup (assocSet t k v) k = some v := by
  induction t with
  | nil => simp [assocSet, alookup]
  | cons p rest ih =>
    obtain ⟨k', v'⟩ := p
    by_cases h : k' = k
    · subst h
      simp [assocSet, alookup]
    · simp [assocSet, alookup, h, ih]

/-- The key multiset of a consed registry entry. -/
theorem namesM_cons (k : String) (v : CmdNode) (t : List (String × CmdNode)) :
    namesM ((k, v) :: t) = k ::ₘ namesM t := by
  simp only [namesM, List.map_cons]
  exact (Multiset.cons_coe _ _).symm

/-- The key multiset of an appended registry. -/
theorem namesM_append (l₁ l₂ : List (String × CmdNode)) :
    namesM (l₁ ++ l₂) = namesM l₁ + namesM l₂ := by
  simp only [namesM, List.map_append]
  exact (Multiset.coe_add _ _).symm

/-- Erasing a key erases one occurrence of it from the key multiset. -/
theorem namesM_aerase (reg : List (String × CmdNode)) (k : String) :
    namesM (aerase reg k) = (namesM reg).erase k := by
  induction reg with
  | nil => simp [aerase, namesM]
  | cons p t ih =>
    obtain ⟨k', v⟩ := p
    by_cases h : k' = k
    · subst h
      rw [show aerase ((k', v) :: t) k' = t from by simp [aerase], namesM_cons,
        Multiset.erase_cons_head]
    · rw [show aerase ((k', v) :: t) k = (k', v) :: aerase t k from by simp [aerase, h],
        namesM_cons, namesM_cons, Multiset.erase_cons_tail _ h, ih]

/-- A successful insertion appends the command under its name. -/
theorem addCommand_some (reg : List (String × CmdNode)) (c : CmdNode)
    (reg' : List (String × CmdNode)) (h : addCommand reg c = some reg') :
    reg' = reg ++ [(c.name, c)] := by
  unfold addCommand at h
  split at h
  · exact absurd h (by simp)
  · exact (Option.some_inj.mp h).symm

/-- Registering a listener adds one pair to the listener multiset. -/
theorem flattenEvs_addListener (evs : List (String × List Listener)) (l : Listener) :
    flattenEvs (addListener evs l) = (l.evName, l) ::ₘ flattenEvs evs := by
  induction evs with
  | nil => simp [addListener, flattenEvs]
  | cons p rest ih =>
    obtain ⟨k, ls⟩ := p
    by_cases h : k = l.evName
    · rw [show addListener ((k, ls) :: rest) l = (k, ls ++ [l]) :: rest from by
        simp [addListener, h]]
      simp only [flattenEvs, List.map_append, List.map_cons, List.map_nil]
      rw [← Multiset.coe_add, Multiset.coe_singleton, ← h, ← Multiset.singleton_add]
      abel
    · rw [show addListener ((k, ls) :: rest) l = (k, ls) :: addListener rest l from by
        simp [addListener, h]]
      simp only [flattenEvs, ih, Multiset.add_cons]

/-- Removing the first occurrence of a listener from one event's list
erases one pair from the mapped multiset. -/
theorem coe_map_removeFirst (ls : List Listener) (l : Listener) (k : String) :
    (↑((removeFirst ls l).map (fun x => (k, x))) : Multiset (String × Listener)) =
      (↑(ls.map (fun x => (k, x))) : Multiset (String × Listener)).erase (k, l) := by
  induction ls with
  | nil => simp [removeFirst]
  | cons x t ih =>
    by_cases h : x = l
    · subst h
      rw [show removeFirst (x :: t) x = t from by simp [removeFirst]]
      simp only [List.map_cons, ← Multiset.cons_coe, Multiset.erase_cons_head]
    · rw [show removeFirst (x :: t) l = x :: removeFirst t l from by simp [removeFirst, h]]
      simp only [List.map_cons, ← Multiset.cons_coe]
      rw [Multiset.erase_cons_tail _ (by simp [h] : ((k, x) : String × Listener) ≠ (k, l)),
        ih]

/-- Every pair in the listener multiset is keyed by a table key. -/
theorem mem_flattenEvs (evs : List (String × List Listener)) (a : String) (x : Listener)
    (h : (a, x) ∈ flattenEvs evs) : a ∈ evs.map Prod.fst := by
  induction evs with
  | nil => simp [flattenEvs] at h
  | cons p rest ih =>
    obtain ⟨k, ls⟩ := p
    simp only [flattenEvs, Multiset.mem_add] at h
    rcases h with h | h
    · simp only [Multiset.mem_coe, List.mem_map] at h
      obtain ⟨y, -, hy⟩ := h
      injection hy with h1 h2
      simp [h1]
    · simp only [List.map_cons]
      exact List.mem_cons_of_mem _ (ih h)

/-- `remove_listener` never changes the table's keys. -/
theorem keys_removeListener (evs : List (String × List Listener)) (l : Listener) :
    (removeListener evs l).map Prod.fst = evs.map Prod.fst := by
  induction evs with
  | nil => rfl
  | cons p rest ih =>
    obtain ⟨k, ls⟩ := p
    by_cases h : k = l.evName
    · subst h
      simp [removeListener]
    · simp [removeListener, h, ih]

/-- `add_listener` only ever introduces the listener's own event key. -/
theorem mem_keys_addListener (evs : List (String × List Listener)) (l : Listener)
    (a : String) (h : a ∈ (addListener evs l).map Prod.fst) :
    a ∈ evs.map Prod.fst ∨ a = l.evName := by
  induction evs with
  | nil =>
    simp [addListener] at h
    exact Or.inr h
  | cons p rest ih =>
    obtain ⟨k, ls⟩ := p
    by_cases hk : k = l.evName
    · rw [show addListener ((k, ls) :: rest) l = (k, ls ++ [l]) :: rest from by
        simp [addListener, hk]] at h
      simp only [List.map_cons, List.mem_cons] at h
      rcases h with h | h
      · exact Or.inl (by simp [h])
      · exact Or.inl (by simp [h])
    · rw [show addListener ((k, ls) :: rest) l = (k, ls) :: addListener rest l from by
        simp [addListener, hk]] at h
      simp only [List.map_cons, List.mem_cons] at h
      rcases h with h | h
      · exact Or.inl (by simp [h])
      · rcases ih h with h' | h'
        · exact Or.inl (by simp [h'])
        · exact Or.inr h'

/-- `add_listener` keeps the table's keys duplicate-free. -/
theorem keysNodup_addListener (evs : List (String × List Listener)) (l : Listener)
    (h : (evs.map Prod.fst).Nodup) : ((addListener evs l).map Prod.fst).Nodup := by
  induction evs with
  | nil => simp [addListener]
  | cons p rest ih =>
    obtain ⟨k, ls⟩ := p
    simp only [List.map_cons, List.nodup_cons] at h
    obtain ⟨hk, hrest⟩ := h
    by_cases hke : k = l.evName
    · rw [show addListener ((k, ls) :: rest) l = (k, ls ++ [l]) :: rest from by
        simp [addListener, hke]]
      simp only [List.map_cons, List.nodup_cons]
      exact ⟨hk, hrest⟩
    · rw [show addListener ((k, ls) :: rest) l = (k, ls) :: addListener rest l from by
        simp [addListener, hke]]
      simp only [List.map_cons, List.nodup_cons]
      refine ⟨fun hmem => ?_, ih hrest⟩
      rcases mem_keys_addListener rest l k hmem with h' | h'
      · exact hk h'
      · exact hke h'

/-- `remove_listener` of a listener erases exactly its pair from the
listener multiset, provided the table's keys are duplicate-free (as a
Python dict's are). -/
theorem flattenEvs_removeListener (evs : List (String × List Listener)) (l : Listener)
    (hnd : (evs.map Prod.fst).Nodup) :
    flattenEvs (removeListener evs l) = (flattenEvs evs).erase (l.evName, l) := by
  induction evs with
  | nil => simp [removeListener, flattenEvs]
  | cons p rest ih =>
    obtain ⟨k, ls⟩ := p
    simp only [List.map_cons, List.nodup_cons] at hnd
    obtain ⟨hk, hrest⟩ := hnd
    by_cases h : k = l.evName
    · rw [show removeListener ((k, ls) :: rest) l = (k, removeFirst ls l) :: rest from by
        simp [removeListener, h]]
      simp only [flattenEvs]
      have hnm : (l.evName, l) ∉ flattenEvs rest :=
        fun hmem => (h ▸ hk) (mem_flattenEvs rest _ _ hmem)
      rw [coe_map_removeFirst, h, Multiset.erase_add_left_neg _ hnm]
    · rw [show removeListener ((k, ls) :: rest) l = (k, ls) :: removeListener rest l from by
        simp [removeListener, h]]
      simp only [flattenEvs]
      have hnm : (l.evName, l) ∉
          (↑(ls.map (fun x => (k, x))) : Multiset (String × Listener)) := by
        intro hmem
        simp only [Multiset.mem_coe, List.mem_map] at hmem
        obtain ⟨y, -, hy⟩ := hmem
        injection hy with h1 h2
        exact h h1
      rw [ih hrest, Multiset.erase_add_right_neg _ hnm]

/-- What the `add_cog` member loop does to the two tables: it adds
exactly the cog's parentless command names to the registry and exactly
its `on_`-member pairs to the listener table, and it keeps the listener
table's keys duplicate-free. -/
theorem cogAdd_spec (key : String) (ms : List CogMemberC) :
    ∀ reg evs reg' evs', cogAdd key ms (reg, evs) = some (reg', evs') →
      namesM reg' = namesM reg + ↑(cogCmdNames ms) ∧
      flattenEvs evs' = flattenEvs evs + ↑(cogListenerPairs ms) ∧
      ((evs.map Prod.fst).Nodup → (evs'.map Prod.fst).Nodup) := by
  induction ms with
  | nil =>
    intro reg evs reg' evs' h
    simp only [cogAdd] at h
    have h' := Option.some_inj.mp h
    injection h' with h1 h2
    subst h1; subst h2
    simp [cogCmdNames, cogListenerPairs]
  | cons m rest ih =>
    intro reg evs reg' evs' h
    cases hm : m.payload with
    | cmd c hpb =>
      cases hpb with
      | true =>
        simp only [cogAdd, hm, if_pos] at h
        obtain ⟨ha, hb, hc⟩ := ih _ _ _ _ h
        refine ⟨?_, ?_, hc⟩
        · rw [ha]; simp [cogCmdNames, hm]
        · rw [hb]; simp [cogListenerPairs, hm]
      | false =>
        cases hadd : addCommand reg (setCogKey c (some key)) with
        | none =>
          simp only [cogAdd, hm, hadd, Bool.false_eq_true, if_false] at h
          exact Option.noConfusion h
        | some reg₁ =>
          simp only [cogAdd, hm, hadd, Bool.false_eq_true, if_false] at h
          have hr := addCommand_some _ _ _ hadd
          obtain ⟨ha, hb, hc⟩ := ih _ _ _ _ h
          refine ⟨?_, ?_, hc⟩
          · rw [ha, hr, namesM_append, namesM_cons, setCogKey_name,
              show cogCmdNames (m :: rest) = c.name :: cogCmdNames rest from by
                simp [cogCmdNames, hm],
              ← Multiset.cons_coe, Multiset.add_cons]
            simp [namesM, Multiset.cons_add, Multiset.add_cons]
            exact List.perm_middle.symm
          · rw [hb]; simp [cogListenerPairs, hm]
    | listenerM l =>
      by_cases hs : strStarts m.attrName "on_"
      · simp only [cogAdd, hm, if_pos hs] at h
        obtain ⟨ha, hb, hc⟩ := ih _ _ _ _ h
        refine ⟨?_, ?_, ?_⟩
        · rw [ha]; simp [cogCmdNames, hm]
        · rw [hb, flattenEvs_addListener]
          rw [show cogListenerPairs (m :: rest) = (l.evName, l) :: cogListenerPairs rest
            from by simp [cogListenerPairs, hm, hs]]
          rw [← Multiset.cons_coe, Multiset.add_cons, Multiset.cons_add]
        · intro hnd
          exact hc (keysNodup_addListener _ _ hnd)
      · simp only [cogAdd, hm, if_neg hs] at h
        obtain ⟨ha, hb, hc⟩ := ih _ _ _ _ h
        refine ⟨?_, ?_, hc⟩
        · rw [ha]; simp [cogCmdNames, hm]
        · rw [hb]; simp [cogListenerPairs, hm, hs]
    | plain =>
      simp only [cogAdd, hm] at h
      obtain ⟨ha, hb, hc⟩ := ih _ _ _ _ h
      refine ⟨?_, ?_, hc⟩
      · rw [ha]; simp [cogCmdNames, hm]
      · rw [hb]; simp [cogListenerPairs, hm]

/-- What the `remove_cog` member loop does to the two tables: it
subtracts exactly the cog's parentless command names from the registry
multiset and exactly its `on_`-member pairs from the listener
multiset. -/
theorem cogRemove_spec (ms : List CogMemberC) :
    ∀ reg evs, (evs.map Prod.fst).Nodup →
      namesM (cogRemove ms (reg, evs)).1 = namesM reg - ↑(cogCmdNames ms) ∧
      flattenEvs (cogRemove ms (reg, evs)).2 = flattenEvs evs - ↑(cogListenerPairs ms) := by
  induction ms with
  | nil =>
    intro reg evs _
    simp [cogRemove, cogCmdNames, cogListenerPairs]
  | cons m rest ih =>
    intro reg evs hnd
    cases hm : m.payload with
    | cmd c hpb =>
      cases hpb with
      | true =>
        simp only [cogRemove, hm, if_pos]
        obtain ⟨ha, hb⟩ := ih reg evs hnd
        refine ⟨?_, ?_⟩
        · rw [ha]; simp [cogCmdNames, hm]
        · rw [hb]; simp [cogListenerPairs, hm]
      | false =>
        simp only [cogRemove, hm, Bool.false_eq_true, if_false]
        obtain ⟨ha, hb⟩ := ih (removeCommand reg c.name) evs hnd
        refine ⟨?_, ?_⟩
        · rw [ha, show removeCommand reg c.name = aerase reg c.name from rfl,
            namesM_aerase,
            show cogCmdNames (m :: rest) = c.name :: cogCmdNames rest from by
              simp [cogCmdNames, hm],
            ← Multiset.cons_coe, Multiset.sub_cons]
        · rw [hb]; simp [cogListenerPairs, hm]
    | listenerM l =>
      by_cases hs : strStarts m.attrName "on_"
      · simp only [cogRemove, hm, if_pos hs]
        have hnd' : ((removeListener evs l).map Prod.fst).Nodup := by
          rw [keys_removeListener]; exact hnd
        obtain ⟨ha, hb⟩ := ih reg (removeListener evs l) hnd'
        refine ⟨?_, ?_⟩
        · rw [ha]; simp [cogCmdNames, hm]
        · rw [hb, flattenEvs_removeListener evs l hnd,
            show cogListenerPairs (m :: rest) = (l.evName, l) :: cogListenerPairs rest
              from by simp [cogListenerPairs, hm, hs],
            ← Multiset.cons_coe, Multiset.sub_cons]
      · simp only [cogRemove, hm, if_neg hs]
        obtain ⟨ha, hb⟩ := ih reg evs hnd
        refine ⟨?_, ?_⟩
        · rw [ha]; simp [cogCmdNames, hm]
        · rw [hb]; simp [cogListenerPairs, hm, hs]
    | plain =>
      simp only [cogRemove, hm]
      obtain ⟨ha, hb⟩ := ih reg evs hnd
      refine ⟨?_, ?_⟩
      · rw [ha]; simp [cogCmdNames, hm]
      · rw [hb]; simp [cogListenerPairs, hm]

/-- C3: a completed `add_cog` followed immediately by `remove_cog` with
the cog's key restores the name multiset of the command registry and
the (event, listener) multiset of the listener table — order-insensitive
restoration of the registered names.  (The listener table's keys are
assumed duplicate-free, as they are for a Python dict.) -/
theorem add_remove_cog_roundtrip (s : BotState) (key : String) (cog : Cog)
    (s' : BotState) (h : addCog s key cog = some s')
    (hnd : (s.extraEvents.map Prod.fst).Nodup) :
    namesM ((removeCog s' key).2.commands) = namesM s.commands ∧
    flattenEvs ((removeCog s' key).2.extraEvents) = flattenEvs s.extraEvents := by
  unfold addCog at h
  cases hca : cogAdd key cog.members (s.commands, s.extraEvents) with
  | none => rw [hca] at h; simp at h
  | some p =>
    obtain ⟨reg, evs⟩ := p
    rw [hca] at h
    simp only at h
    have hs' := (Option.some_inj.mp h).symm
    subst hs'
    obtain ⟨ha, hb, hc⟩ := cogAdd_spec key cog.members s.commands s.extraEvents reg evs hca
    obtain ⟨hra, hrb⟩ := cogRemove_spec cog.members reg evs (hc hnd)
    simp only [removeCog, alookup_assocSet_self]
    constructor
    · rw [hra, ha, add_tsub_cancel_right]
    · rw [hrb, hb, add_tsub_cancel_right]

/-- Witness for C3 at a concrete input: adding `rtCog` to the empty bot
and removing it restores both tables. -/
theorem add_remove_cog_roundtrip_witness :
    addCog emptyState "K" rtCog = some rtAdded ∧
    (emptyState.extraEvents.map Prod.fst).Nodup ∧
    namesM ((removeCog rtAdded "K").2.commands) = namesM emptyState.commands ∧
    flattenEvs ((removeCog rtAdded "K").2.extraEvents) = flattenEvs emptyState.extraEvents :=
  ⟨rfl, by simp [emptyState],
   (add_remove_cog_roundtrip emptyState "K" rtCog rtAdded rfl (by simp [emptyState])).1,
   (add_remove_cog_roundtrip emptyState "K" rtCog rtAdded rfl (by simp [emptyState])).2⟩

/-- Lookup skips a block of entries with other keys. -/
theorem alookup_append_right {α : Type} (l₁ l₂ : List (String × α)) (k : String)
    (h : ∀ p ∈ l₁, p.1 ≠ k) : alookup (l₁ ++ l₂) k = alookup l₂ k := by
  induction l₁ with
  | nil => rfl
  | cons e t ih =>
    obtain ⟨k', v⟩ := e
    have hne : k' ≠ k := h (k', v) (by simp)
    simp only [List.cons_append, alookup, if_neg hne]
    exact ih (fun p hp => h p (by simp [hp]))

/-- Erasure skips a block of entries with other keys. -/
theorem aerase_append_right {α : Type} (l₁ l₂ : List (String × α)) (k : String)
    (h : ∀ p ∈ l₁, p.1 ≠ k) : aerase (l₁ ++ l₂) k = l₁ ++ aerase l₂ k := by
  induction l₁ with
  | nil => rfl
  | cons e t ih =>
    obtain ⟨k', v⟩ := e
    have hne : k' ≠ k := h (k', v) (by simp)
    simp only [List.cons_append, aerase, if_neg hne]
    exact congrArg _ (ih (fun p hp => h p (by simp [hp])))

/-- Erasure yields a sublist. -/
theorem aerase_sublist {α : Type} (l : List (String × α)) (k : String) :
    List.Sublist (aerase l k) l := by
  induction l with
  | nil => simp [aerase]
  | cons e t ih =>
    obtain ⟨k', v⟩ := e
    by_cases h : k' = k
    · simp only [aerase, if_pos h]
      exact List.sublist_cons_self _ _
    · simp only [aerase, if_neg h]
      exact List.Sublist.cons₂ _ ih

/-- Erasing a key whose entries a filter drops anyway does not change
the filtered list. -/
theorem filter_aerase {α : Type} (p : String × α → Bool) (l : List (String × α))
    (k : String) (h : ∀ e ∈ l, e.1 = k → p e = false) :
    (aerase l k).filter p = l.filter p := by
  induction l with
  | nil => rfl
  | cons e t ih =>
    obtain ⟨k', v⟩ := e
    by_cases hk : k' = k
    · simp only [aerase, if_pos hk]
      have hpe : p (k', v) = false := h (k', v) (by simp) hk
      simp [List.filter_cons, hpe]
    · simp only [aerase, if_neg hk]
      rw [List.filter_cons, List.filter_cons, ih (fun e he hek => h e (by simp [he]) hek)]

/-- Removing an element a filter drops anyway does not change the
filtered list. -/
theorem filter_removeFirst (p : Listener → Bool) (ls : List Listener) (l : Listener)
    (h : p l = false) : (removeFirst ls l).filter p = ls.filter p := by
  induction ls with
  | nil => rfl
  | cons x t ih =>
    by_cases hx : x = l
    · rw [show removeFirst (x :: t) l = t from by simp [removeFirst, hx]]
      simp [List.filter_cons, hx, h]
    · rw [show removeFirst (x :: t) l = x :: removeFirst t l from by simp [removeFirst, hx]]
      simp [List.filter_cons, ih]

/-- Removing an `M`-owned listener does not change the `M`-filtered
listener table. -/
theorem evF_removeListener (M : String) (evs : List (String × List Listener))
    (l : Listener) (h : keepL M l = false) :
    evF M (removeListener evs l) = evF M evs := by
  induction evs with
  | nil => rfl
  | cons e rest ih =>
    obtain ⟨k, ls⟩ := e
    by_cases hk : k = l.evName
    · rw [show removeListener ((k, ls) :: rest) l = (k, removeFirst ls l) :: rest from by
        simp [removeListener, hk]]
      simp only [evF, List.map_cons]
      rw [filter_removeFirst _ ls l h]
    · rw [show removeListener ((k, ls) :: rest) l = (k, ls) :: removeListener rest l from by
        simp [removeListener, hk]]
      simp only [evF, List.map_cons] at ih ⊢
      rw [ih]

/-- The `remove_cog` member loop, run for a cog whose members are all
attributed to module `M`, leaves the `M`-survivor filters of both
tables unchanged and only ever shrinks the registry. -/
theorem cogRemove_frame (M : String) (ms : List CogMemberC) :
    ∀ (reg : List (String × CmdNode)) (evs : List (String × List Listener)),
      (∀ m ∈ ms, ∀ cn : CmdNode, m.payload = .cmd cn false →
         ∀ p ∈ reg, p.1 = cn.name → keepCmd M p = false) →
      (∀ m ∈ ms, ∀ l : Listener, m.payload = .listenerM l → keepL M l = false) →
      (cogRemove ms (reg, evs)).1.filter (keepCmd M) = reg.filter (keepCmd M) ∧
      List.Sublist (cogRemove ms (reg, evs)).1 reg ∧
      evF M (cogRemove ms (reg, evs)).2 = evF M evs := by
  induction ms with
  | nil =>
    intro reg evs _ _
    exact ⟨rfl, List.Sublist.refl _, rfl⟩
  | cons m rest ih =>
    intro reg evs hcmds hls
    have hcmds' := fun (m' : CogMemberC) (hm' : m' ∈ rest) =>
      hcmds m' (List.mem_cons_of_mem _ hm')
    have hls' := fun (m' : CogMemberC) (hm' : m' ∈ rest) =>
      hls m' (List.mem_cons_of_mem _ hm')
    cases hm : m.payload with
    | cmd c hpb =>
      cases hpb with
      | true =>
        simp only [cogRemove, hm, if_pos]
        exact ih reg evs hcmds' hls'
      | false =>
        simp only [cogRemove, hm, Bool.false_eq_true, if_false]
        have hsub : List.Sublist (removeCommand reg c.name) reg :=
          aerase_sublist reg c.name
        have hstep : (removeCommand reg c.name).filter (keepCmd M) =
            reg.filter (keepCmd M) :=
          filter_aerase _ reg c.name
            (fun e he hek => hcmds m (List.mem_cons_self _ _) c hm e he hek)
        obtain ⟨h1, h2, h3⟩ := ih (removeCommand reg c.name) evs
          (fun m' hm' cn hpc p hp hpn => hcmds' m' hm' cn hpc p (hsub.subset hp) hpn)
          hls'
        exact ⟨h1.trans hstep, h2.trans hsub, h3⟩
    | listenerM l =>
      by_cases hs : strStarts m.attrName "on_"
      · simp only [cogRemove, hm, if_pos hs]
        have hl : keepL M l = false := hls m (List.mem_cons_self _ _) l hm
        obtain ⟨h1, h2, h3⟩ := ih reg (removeListener evs l) hcmds' hls'
        exact ⟨h1, h2, h3.trans (evF_removeListener M evs l hl)⟩
      · simp only [cogRemove, hm, if_neg hs]
        exact ih reg evs hcmds' hls'
    | plain =>
      simp only [cogRemove, hm]
      exact ih reg evs hcmds' hls'

/-- Recursively clearing a group's subcommands does not change its
name. -/
theorem recursivelyRemoveAll_name (c : CmdNode) :
    (recursivelyRemoveAll c).name = c.name := by
  cases c with
  | node n m k s => cases s <;> rfl

/-- The source's listener loop keeps exactly the listeners from other
modules. -/
theorem unloadEvsFilter_evF (evs : List (String × List Listener)) (M : String) :
    unloadEvsFilter evs M = evF M evs := rfl

/-- The command sweep of `unload_extension`: over a snapshot equal to
the registry, with duplicate-free keys each keyed by its command's
name, it removes exactly the `M`-owned entries. -/
theorem unloadCmdsFold_spec (M : String) :
    ∀ (snap pre : List (String × CmdNode)),
      ((pre ++ snap).map Prod.fst).Nodup →
      (∀ p ∈ snap, p.1 = p.2.name) →
      unloadCmdsFold snap M (pre ++ snap) = pre ++ snap.filter (keepCmd M) := by
  intro snap
  induction snap with
  | nil =>
    intro pre _ _
    simp [unloadCmdsFold]
  | cons e t ih =>
    intro pre hnd hkm
    obtain ⟨n, c⟩ := e
    have hn : n = c.name := hkm (n, c) (List.mem_cons_self _ _)
    have hdisj : (pre.map Prod.fst).Disjoint (n :: t.map Prod.fst) :=
      (List.nodup_append.mp (by simpa using hnd)).2.2
    have hkm' : ∀ p ∈ t, p.1 = p.2.name := fun p hp => hkm p (List.mem_cons_of_mem _ hp)
    by_cases hcm : c.module = some M
    · simp only [unloadCmdsFold, if_pos hcm]
      have hkpre : ∀ p ∈ pre, p.1 ≠ (recursivelyRemoveAll c).name := by
        intro p hp he
        exact hdisj (List.mem_map_of_mem _ hp)
          (by simp [he ▸ (recursivelyRemoveAll_name c ▸ hn.symm)])
      have hstep : removeCommand (pre ++ (n, c) :: t) (recursivelyRemoveAll c).name =
          pre ++ t := by
        rw [show removeCommand (pre ++ (n, c) :: t) (recursivelyRemoveAll c).name =
            aerase (pre ++ (n, c) :: t) (recursivelyRemoveAll c).name from rfl,
          aerase_append_right _ _ _ hkpre, recursivelyRemoveAll_name, ← hn]
        simp [aerase]
      rw [hstep]
      have hnd' : ((pre ++ t).map Prod.fst).Nodup :=
        List.Nodup.sublist
          (List.Sublist.map _ (List.Sublist.append_left (List.sublist_cons_self _ _) pre))
          hnd
      rw [ih pre hnd' hkm']
      have : keepCmd M (n, c) = false := by simp [keepCmd, hcm]
      simp [List.filter_cons, this]
    · simp only [unloadCmdsFold, if_neg hcm]
      have hshape : pre ++ (n, c) :: t = (pre ++ [(n, c)]) ++ t := by simp
      rw [hshape, ih (pre ++ [(n, c)]) (by simpa using hnd) hkm']
      have : keepCmd M (n, c) = true := by simp [keepCmd, hcm]
      simp [List.filter_cons, this]

/-- The cog sweep of `unload_extension`: over a snapshot of the cog
table it removes (through `remove_cog`) exactly the `M`-cogs, keeps
every other cog in place, never grows the registry, and leaves the
`M`-survivor filters of both tables and the remaining state fields
unchanged. -/
theorem unloadCogsFold_spec (M : String) :
    ∀ (snap pre : List (String × Cog)) (st : BotState) (orig : List (String × CmdNode)),
      st.cogs = pre.filter (keepCog M) ++ snap →
      ((pre ++ snap).map Prod.fst).Nodup →
      List.Sublist st.commands orig →
      (∀ q ∈ snap, q.2.module = some M → MembersOwned M orig q.2) →
      (unloadCogsFold snap M st).cogs =
        pre.filter (keepCog M) ++ snap.filter (keepCog M) ∧
      List.Sublist (unloadCogsFold snap M st).commands orig ∧
      (unloadCogsFold snap M st).commands.filter (keepCmd M) =
        st.commands.filter (keepCmd M) ∧
      evF M (unloadCogsFold snap M st).extraEvents = evF M st.extraEvents ∧
      (unloadCogsFold snap M st).extensions = st.extensions ∧
      (unloadCogsFold snap M st).sysModules = st.sysModules ∧
      (unloadCogsFold snap M st).executions = st.executions := by
  intro snap
  induction snap with
  | nil =>
    intro pre st orig hcogs hnd hsub _
    exact ⟨by simpa using hcogs, hsub, rfl, rfl, rfl, rfl, rfl⟩
  | cons e rest ih =>
    intro pre st orig hcogs hnd hsub hsafe
    obtain ⟨k, c⟩ := e
    have hdisj : (pre.map Prod.fst).Disjoint (k :: rest.map Prod.fst) :=
      (List.nodup_append.mp (by simpa using hnd)).2.2
    have hsafe' := fun q hq => hsafe q (List.mem_cons_of_mem _ hq)
    by_cases hcm : c.module = some M
    · simp only [unloadCogsFold, if_pos hcm]
      have hk_not_pre : ∀ p ∈ pre.filter (keepCog M), p.1 ≠ k := by
        intro p hp he
        exact hdisj (List.mem_map_of_mem _ (List.mem_of_mem_filter hp)) (by simp [he])
      have hlook : alookup st.cogs k = some c := by
        rw [hcogs, alookup_append_right _ _ _ hk_not_pre]
        simp [alookup]
      have hf1 : (removeCog st k).2.cogs = aerase st.cogs k := by
        simp [removeCog, hlook]
      have hf2 : (removeCog st k).2.commands =
          (cogRemove c.members (st.commands, st.extraEvents)).1 := by
        simp [removeCog, hlook]
      have hf3 : (removeCog st k).2.extraEvents =
          (cogRemove c.members (st.commands, st.extraEvents)).2 := by
        simp [removeCog, hlook]
      have hf4 : (removeCog st k).2.extensions = st.extensions := by
        simp [removeCog, hlook]
      have hf5 : (removeCog st k).2.sysModules = st.sysModules := by
        simp [removeCog, hlook]
      have hf6 : (removeCog st k).2.executions = st.executions := by
        simp [removeCog, hlook]
      obtain ⟨hmoc, hmol⟩ := hsafe (k, c) (List.mem_cons_self _ _) hcm
      obtain ⟨hcr1, hcr2, hcr3⟩ := cogRemove_frame M c.members st.commands st.extraEvents
        (fun m hm cn hpc p hp hpn => by
          have := hmoc m hm cn hpc p (hsub.subset hp) hpn
          simp [keepCmd, this])
        (fun m hm l hpl => by
          have := hmol m hm l hpl
          simp [keepL, this])
      have hcogs' : (removeCog st k).2.cogs = pre.filter (keepCog M) ++ rest := by
        rw [hf1, hcogs, aerase_append_right _ _ _ hk_not_pre]
        simp [aerase]
      have hnd' : ((pre ++ rest).map Prod.fst).Nodup :=
        List.Nodup.sublist
          (List.Sublist.map _ (List.Sublist.append_left (List.sublist_cons_self _ _) pre))
          hnd
      obtain ⟨g1, g2, g3, g4, g5, g6, g7⟩ := ih pre ((removeCog st k).2) orig
        hcogs' hnd' (by rw [hf2]; exact hcr2.trans hsub) hsafe'
      have hkc : keepCog M (k, c) = false := by simp [keepCog, hcm]
      refine ⟨?_, g2, ?_, ?_, ?_, ?_, ?_⟩
      · rw [g1]
        simp [List.filter_cons, hkc]
      · rw [g3, hf2, hcr1]
      · rw [g4, hf3, hcr3]
      · rw [g5, hf4]
      · rw [g6, hf5]
      · rw [g7, hf6]
    · simp only [unloadCogsFold, if_neg hcm]
      have hkc : keepCog M (k, c) = true := by simp [keepCog, hcm]
      have hpre' : (pre ++ [(k, c)]).filter (keepCog M) =
          pre.filter (keepCog M) ++ [(k, c)] := by
        simp [List.filter_append, List.filter_cons, hkc]
      obtain ⟨g1, g2, g3, g4, g5, g6, g7⟩ := ih (pre ++ [(k, c)]) st orig
        (by rw [hpre']; simpa [List.append_assoc] using hcogs)
        (by simpa using hnd) hsub hsafe'
      refine ⟨?_, g2, g3, g4, g5, g6, g7⟩
      rw [g1, hpre']
      simp [List.filter_cons, hkc, List.append_assoc]

/-- C2: for a loaded extension `M` (in a well-formed state),
`unload_extension M` removes every cog, top-level command, and listener
attributable to `M` — the cogs through the full `remove_cog` path
first, then the remaining commands, then the listeners — evicts `M`
from the load table and from the module cache, and leaves every cog,
command, and listener not attributable to `M` (and everything else in
the state) unchanged; for a name not in the load table it is a no-op. -/
theorem unload_extension_frame (s : BotState) (M : String) (hsafe : UnloadSafe s M) :
    (M ∈ s.extensions →
       (unloadExtension s M).cogs = s.cogs.filter (keepCog M) ∧
       (unloadExtension s M).commands = s.commands.filter (keepCmd M) ∧
       (unloadExtension s M).extraEvents = evF M s.extraEvents ∧
       (unloadExtension s M).extensions = serase s.extensions M ∧
       (unloadExtension s M).sysModules = serase s.sysModules M ∧
       (unloadExtension s M).executions = s.executions) ∧
    (M ∉ s.extensions → unloadExtension s M = s) := by
  obtain ⟨hcnd, hknd, hkm, hown⟩ := hsafe
  constructor
  · intro hmem
    obtain ⟨g1, g2, g3, g4, g5, g6, g7⟩ := unloadCogsFold_spec M s.cogs [] s s.commands
      (by simp) (by simpa using hcnd) (List.Sublist.refl _) (fun q hq h => hown q hq h)
    have hnd1 : ((unloadCogsFold s.cogs M s).commands.map Prod.fst).Nodup :=
      List.Nodup.sublist (List.Sublist.map _ g2) hknd
    have hkm1 : ∀ p ∈ (unloadCogsFold s.cogs M s).commands, p.1 = p.2.name :=
      fun p hp => hkm p (g2.subset hp)
    have h2 := unloadCmdsFold_spec M (unloadCogsFold s.cogs M s).commands []
      (by simpa using hnd1) hkm1
    simp only [List.nil_append] at h2
    simp only [unloadExtension, if_pos hmem]
    refine ⟨?_, ?_, ?_, ?_, ?_, ?_⟩
    · simpa using g1
    · rw [h2, g3]
    · rw [unloadEvsFilter_evF]
      exact g4
    · rw [g5]
    · rw [g6]
    · exact g7
  · intro hmem
    simp [unloadExtension, hmem]

/-- Witness for C2 at a concrete input: unloading `extA` from `exState`
removes its cog, its command, and its listener, evicts it from the load
table and the module cache, and keeps the other module's command and
listener. -/
theorem unload_extension_frame_witness :
    UnloadSafe exState "extA" ∧ "extA" ∈ exState.extensions ∧
    (unloadExtension exState "extA").cogs = exState.cogs.filter (keepCog "extA") ∧
    (unloadExtension exState "extA").commands =
      exState.commands.filter (keepCmd "extA") ∧
    (unloadExtension exState "extA").extraEvents = evF "extA" exState.extraEvents ∧
    (unloadExtension exState "extA").extensions = serase exState.extensions "extA" ∧
    (unloadExtension exState "extA").sysModules = serase exState.sysModules "extA" ∧
    (unloadExtension exState "extA").executions = exState.executions := by
  have hs : UnloadSafe exState "extA" := by
    refine ⟨by decide, by decide, by decide, ?_⟩
    intro q hq hqm
    simp only [exState, List.mem_singleton] at hq
    subst hq
    constructor
    · intro m hm cn hpc p hp hpn
      simp [exCog] at hm
      simp [exState] at hp
      rcases hm with rfl | rfl
      · injection hpc with h1 h2
        subst h1
        rcases hp with rfl | rfl
        · rfl
        · exact absurd hpn (by decide)
      · exact MemberPayload.noConfusion hpc
    · intro m hm l hpl
      simp [exCog] at hm
      rcases hm with rfl | rfl
      · exact MemberPayload.noConfusion hpl
      · injection hpl with h1
        subst h1
        rfl
  have h := (unload_extension_frame exState "extA" hs).1 (by decide)
  exact ⟨hs, by decide, h.1, h.2.1, h.2.2.1, h.2.2.2.1, h.2.2.2.2.1, h.2.2.2.2.2⟩

end PriestPy
